import Mathlib

/-!
Verification of the dyld shared-cache address-to-symbol resolver (src/ipsw/main.c).

The C program is shallowly embedded: machine integers become `Nat` with an
explicit `% 2 ^ 64` wherever 64-bit wraparound can occur, signed 64-bit results
become `Int` through a two-complement cast, fallible lookups return `Option`,
and the tables that the program reads out of the memory-mapped buffer are
modelled as Lean lists holding the same records the C structs hold.  Struct and
function names follow the source.
-/

/-- Embeds struct dyld_cache_mapping_info: one virtual-address range backed by a
file region.  All fields are unsigned (address, size, fileOffset are uint64;
maxProt, initProt are uint32). -/
structure MappingInfo where
  address : Nat
  size : Nat
  fileOffset : Nat
  maxProt : Nat
  initProt : Nat
deriving Inhabited, DecidableEq, Repr

/-- Embeds struct dyld_cache_range_entry: startAddress is uint64, size and
imageIndex are uint32.  Entries are sorted by startAddress for binary search. -/
structure RangeEntry where
  startAddress : Nat
  size : Nat
  imageIndex : Nat
deriving Inhabited, DecidableEq, Repr

/-- Embeds struct dyld_cache_image_info (address and pathFileOffset are the
fields the program reads; modTime, inode, pad are carried for layout fidelity). -/
structure ImageInfo where
  address : Nat
  modTime : Nat
  inode : Nat
  pathFileOffset : Nat
  pad : Nat
deriving Inhabited, DecidableEq, Repr

/-- Embeds struct nlist_64: n_strx uint32, n_type uint8, n_sect uint8,
n_desc uint16, n_value uint64. -/
structure Nlist64 where
  n_strx : Nat
  n_type : Nat
  n_sect : Nat
  n_desc : Nat
  n_value : Nat
deriving Inhabited, DecidableEq, Repr

/-- Embeds struct dyld_cache_local_symbols_entry (all fields uint32). -/
structure LocalSymbolsEntry where
  dylibOffset : Nat
  nlistStartIndex : Nat
  nlistCount : Nat
deriving Inhabited, DecidableEq, Repr

/-- Embeds struct dyld_cache_local_symbols_info (all fields uint32);
sizeof = 24 bytes. -/
structure LocalSymbolsInfo where
  nlistOffset : Nat
  nlistCount : Nat
  stringsOffset : Nat
  stringsSize : Nat
  entriesOffset : Nat
  entriesCount : Nat
deriving Inhabited, DecidableEq, Repr

/-- Embeds struct dyld_cache_accelerator_info restricted to the three fields the
program reads (version, rangeTableOffset, rangeTableCount, all uint32); the
remaining fields only contribute to its 72-byte size. -/
structure AcceleratorInfo where
  version : Nat
  rangeTableOffset : Nat
  rangeTableCount : Nat
deriving Inhabited, DecidableEq, Repr

/-- Embeds struct dyld_cache_header restricted to the fields the program reads.
magic is the sixteen raw bytes.  The omitted fields (dyldBaseAddress, uuid,
codeSignature and slideInfo offsets, ...) only contribute to the 152-byte size
of the header. -/
structure CacheHeader where
  magic : List Nat
  mappingOffset : Nat
  mappingCount : Nat
  imagesOffset : Nat
  imagesCount : Nat
  localSymbolsOffset : Nat
  localSymbolsSize : Nat
  accelerateInfoAddr : Nat
  accelerateInfoSize : Nat
deriving Inhabited, DecidableEq, Repr

/-- Two-complement reinterpretation of a uint64 value as int64, as performed by
the cast (int64_t)(...) in addr_to_file_offset. -/
def toInt64 (n : Nat) : Int :=
  if n % 2 ^ 64 < 2 ^ 63 then ((n % 2 ^ 64 : Nat) : Int)
  else ((n % 2 ^ 64 : Nat) : Int) - 2 ^ 64

/-- Two-complement reinterpretation of a uint32 value as int32, as performed by
the cast (int32_t)image_index in find_symbol_for_address (main.c line 643). -/
def toInt32 (n : Nat) : Int :=
  if n % 2 ^ 32 < 2 ^ 31 then ((n % 2 ^ 32 : Nat) : Int)
  else ((n % 2 ^ 32 : Nat) : Int) - 2 ^ 32

/-- Embeds addr_to_file_offset (main.c lines 164-175).  The loop scans the
mapping table in order; `start + size` is a uint64 sum, so it is taken mod
2 ^ 64; the hit returns (int64_t)(fileOffset + (addr - start)); the miss
returns -1. -/
def addr_to_file_offset (mappings : List MappingInfo) (addr : Nat) : Int :=
  match mappings with
  | [] => -1
  | m :: rest =>
    if m.address ≤ addr ∧ addr < (m.address + m.size) % 2 ^ 64 then
      toInt64 (m.fileOffset + (addr - m.address))
    else
      addr_to_file_offset rest addr

/-- Containment of an address in a mapping entry as the spec words it: the
half-open interval [start, start + size) over exact (non-wrapping) arithmetic. -/
def mapContainsSpec (m : MappingInfo) (a : Nat) : Bool :=
  decide (m.address ≤ a) && decide (a < m.address + m.size)

/-- Eligibility filter shared by both symbol scans (main.c lines 378-388 and
528-538): no stab bits (n_type & 0xe0 == 0), defined in a section
(n_type & 0x0e == 0x0e), and value not past the target address. -/
def eligible (s : Nlist64) (target : Nat) : Bool :=
  (s.n_type &&& 0xe0 == 0) && (s.n_type &&& 0x0e == 0x0e) &&
    decide (s.n_value ≤ target)

/-- Eligibility as applied by search_dylib_symbol_table, which additionally
requires the string-table index to be in bounds (main.c line 541). -/
def eligibleA (s : Nlist64) (strsize target : Nat) : Bool :=
  eligible s target && decide (s.n_strx < strsize)

/-- Loop body of search_symbol_table (main.c lines 375-394): keep the eligible
symbol with the greatest value; `best` is the best_symbol pointer. -/
def searchSymGo (target : Nat) : List Nlist64 → Option Nlist64 → Option Nlist64
  | [], best => best
  | s :: rest, best =>
    if eligible s target then
      match best with
      | none => searchSymGo target rest (some s)
      | some b =>
        if b.n_value < s.n_value then searchSymGo target rest (some s)
        else searchSymGo target rest (some b)
    else searchSymGo target rest best

/-- Embeds search_symbol_table (main.c lines 366-402).  The C loop reads
nlist_base[start_index + i] for i < count, which (in bounds) is exactly the
slice below; the returned entry carries the out-parameters best_name
(string_table + n_strx) and best_addr (n_value); `none` is the return 0 case. -/
def search_symbol_table (nlistBase : List Nlist64) (startIndex count target : Nat) :
    Option Nlist64 :=
  searchSymGo target ((nlistBase.drop startIndex).take count) none

/-- In-out state of search_dylib_symbol_table: best_addr, best_name (a name
pointer is identified by the n_strx it points at, `none` is NULL) and the
found_better flag. -/
structure BestState where
  bestAddr : Nat
  bestName : Option Nat
  foundBetter : Bool
deriving Inhabited, DecidableEq, Repr

/-- Loop of search_dylib_symbol_table (main.c lines 525-552): skip stab,
non-N_SECT, past-target and out-of-range-n_strx entries; replace the best when
best_addr is still 0 or the value is strictly greater. -/
def dylibScanGo (strsize target : Nat) : List Nlist64 → BestState → BestState
  | [], st => st
  | s :: rest, st =>
    if eligibleA s strsize target then
      if st.bestAddr == 0 || decide (st.bestAddr < s.n_value) then
        dylibScanGo strsize target rest ⟨s.n_value, some s.n_strx, true⟩
      else dylibScanGo strsize target rest st
    else dylibScanGo strsize target rest st

/-- Embeds search_dylib_symbol_table (main.c lines 424-555).  The Mach-O header
walk (lines 430-519) is condensed into the argument: `none` models any of its
early returns (header out of bounds, bad magic, missing LC_SYMTAB or
__LINKEDIT, failed __LINKEDIT translation, symbol or string table out of
bounds), in which case the function returns 0 with the in-out state untouched;
`some (syms, strsize)` models the successfully located symbol entries and
string-table size, after which the loop above runs.  found_better starts at 0
inside the function, so the incoming flag is reset. -/
def search_dylib_symbol_table (dylibView : Option (List Nlist64 × Nat))
    (target : Nat) (st : BestState) : BestState :=
  match dylibView with
  | none => { st with foundBetter := false }
  | some (syms, strsize) =>
    dylibScanGo strsize target syms { st with foundBetter := false }

/-- Embeds find_local_symbols_entry (main.c lines 339-348): first entry whose
dylibOffset equals the given file offset. -/
def find_local_symbols_entry (entries : List LocalSymbolsEntry)
    (dylibOffset : Nat) : Option LocalSymbolsEntry :=
  entries.find? (fun e => e.dylibOffset == dylibOffset)

/-- Embeds image_index_to_dylib_offset (main.c lines 304-322): bounds-check the
index against the image count, then translate the image load address. -/
def image_index_to_dylib_offset (images : List ImageInfo)
    (mappings : List MappingInfo) (imageIndex : Nat) : Int :=
  if imageIndex < images.length then
    addr_to_file_offset mappings (images.getD imageIndex default).address
  else -1

/-- Upper end of a range entry as computed by the C code: uint64 sum, wrapping
mod 2 ^ 64. -/
def rangeEnd (e : RangeEntry) : Nat := (e.startAddress + e.size) % 2 ^ 64

/-- Upper end of a range entry over exact arithmetic. -/
def endTrue (e : RangeEntry) : Nat := e.startAddress + e.size

/-- Loop of binary_search_range_table (main.c lines 570-586).  The C while loop
terminates because high - low shrinks every iteration; the fuel argument only
bounds the number of iterations and is immaterial once it is at least
high - low. -/
def bsGo (t : List RangeEntry) (a : Nat) : Nat → Nat → Nat → Option RangeEntry
  | 0, _, _ => none
  | fuel + 1, low, high =>
    if low < high then
      if a < (t.getD (low + (high - low) / 2) default).startAddress then
        bsGo t a fuel low (low + (high - low) / 2)
      else if rangeEnd (t.getD (low + (high - low) / 2) default) ≤ a then
        bsGo t a fuel (low + (high - low) / 2 + 1) high
      else some (t.getD (low + (high - low) / 2) default)
    else none

/-- Embeds binary_search_range_table (main.c lines 567-587): low starts at 0,
high at count; the list length is enough fuel because high - low starts there
and strictly decreases. -/
def binary_search_range_table (t : List RangeEntry) (a : Nat) :
    Option RangeEntry :=
  bsGo t a t.length 0 t.length

/-- The find_owning_image operation of the spec: the image index field of the
range entry located by the binary search (main.c line 642). -/
def findOwningImage (t : List RangeEntry) (a : Nat) : Option Nat :=
  (binary_search_range_table t a).map (fun e => e.imageIndex)

/-- Boolean check that a range table is sorted and non-overlapping: every
entry ends (exact arithmetic) at or before the next starts. -/
def sortedRangesB : List RangeEntry → Bool
  | [] => true
  | [_] => true
  | x :: y :: rest => decide (endTrue x ≤ y.startAddress) && sortedRangesB (y :: rest)

/-- A sorted, non-overlapping range table. -/
def SortedRanges (t : List RangeEntry) : Prop := sortedRangesB t = true

instance (t : List RangeEntry) : Decidable (SortedRanges t) :=
  inferInstanceAs (Decidable (_ = true))

/-- Every entry ends strictly below 2 ^ 64, so the uint64 sum start + size does
not wrap. -/
def NoWrapRanges (t : List RangeEntry) : Prop :=
  t.all (fun e => decide (endTrue e < 2 ^ 64)) = true

instance (t : List RangeEntry) : Decidable (NoWrapRanges t) :=
  inferInstanceAs (Decidable (_ = true))

/-- Containment of an address in a range entry over exact arithmetic, as the
spec words it. -/
def containsAddr (e : RangeEntry) (a : Nat) : Bool :=
  decide (e.startAddress ≤ a) && decide (a < endTrue e)

/-- Reference linear scan over the range table, following the spec: return the
image index of the containing entry, or none. -/
def linearRefScan (t : List RangeEntry) (a : Nat) : Option Nat :=
  (t.find? (fun e => containsAddr e a)).map (fun e => e.imageIndex)

/-- Abstracts the validated local-symbols region as consumed by
find_symbol_for_address: the per-image entries array and the shared nlist
array that live at entriesOffset and nlistOffset. -/
structure LocalSymbolsView where
  entries : List LocalSymbolsEntry
  nlist : List Nlist64
deriving Inhabited

/-- Output of find_symbol_for_address: symbol_name (NULL modelled as none, a
non-NULL pointer by the n_strx it points at), symbol_addr, image_index_out
(an int32: initialized to -1, set to the (int32_t) cast of the uint32 range
entry index) and the return value (true for 0, false for -1). -/
structure FindSymbolResult where
  symbolName : Option Nat
  symbolAddr : Nat
  imageIndex : Int
  found : Bool
deriving Inhabited, DecidableEq, Repr

/-- Embeds find_symbol_for_address (main.c lines 623-700): binary search the
range table; on a miss return -1 with image_index -1; otherwise store the
(int32_t) cast of the uint32 image index in the out-parameter (line 643), then
convert the index to a dylib file offset (failure returns -1 but keeps the
stored index); run Source A (the embedded symbol table of the dylib, `dylibAt`
gives the view parsed at a file offset) and then Source B (the shared local
symbols), where a Source B match only replaces the current best when its value
is strictly greater. -/
def find_symbol_for_address (mappings : List MappingInfo)
    (images : List ImageInfo) (localInfo : Option LocalSymbolsView)
    (rangeTable : List RangeEntry)
    (dylibAt : Nat → Option (List Nlist64 × Nat)) (target : Nat) :
    FindSymbolResult :=
  match binary_search_range_table rangeTable target with
  | none => ⟨none, 0, -1, false⟩
  | some rangeEntry =>
    if image_index_to_dylib_offset images mappings rangeEntry.imageIndex < 0 then
      ⟨none, 0, toInt32 rangeEntry.imageIndex, false⟩
    else
      let dylibOffset :=
        (image_index_to_dylib_offset images mappings rangeEntry.imageIndex).toNat
      let stA := search_dylib_symbol_table (dylibAt dylibOffset) target
        ⟨0, none, false⟩
      match localInfo with
      | none =>
        ⟨stA.bestName, stA.bestAddr, toInt32 rangeEntry.imageIndex, stA.foundBetter⟩
      | some li =>
        match find_local_symbols_entry li.entries dylibOffset with
        | none =>
          ⟨stA.bestName, stA.bestAddr, toInt32 rangeEntry.imageIndex, stA.foundBetter⟩
        | some se =>
          match search_symbol_table li.nlist se.nlistStartIndex se.nlistCount target with
          | none =>
            ⟨stA.bestName, stA.bestAddr, toInt32 rangeEntry.imageIndex, stA.foundBetter⟩
          | some b =>
            if stA.bestAddr < b.n_value then
              ⟨some b.n_strx, b.n_value, toInt32 rangeEntry.imageIndex, true⟩
            else
              ⟨stA.bestName, stA.bestAddr, toInt32 rangeEntry.imageIndex, stA.foundBetter⟩

/-- Embeds get_accelerator_info (main.c lines 186-236).  The accelerator struct
content found at the translated address is passed in as `accel`; the checks
run in source order: header too old (mappingOffset < 0x78), address or size
zero, failed translation, info header out of bounds (sizeof = 72), version
different from 1, empty range table, range-table region out of bounds
(entry size 16). -/
def get_accelerator_info (cacheSize : Nat) (hdr : CacheHeader)
    (mappings : List MappingInfo) (accel : AcceleratorInfo) :
    Option AcceleratorInfo :=
  if hdr.mappingOffset < 0x78 then none
  else if hdr.accelerateInfoAddr = 0 ∨ hdr.accelerateInfoSize = 0 then none
  else if addr_to_file_offset mappings hdr.accelerateInfoAddr < 0 then none
  else if cacheSize <
      (addr_to_file_offset mappings hdr.accelerateInfoAddr).toNat + 72 then none
  else if accel.version ≠ 1 then none
  else if accel.rangeTableCount = 0 then none
  else if cacheSize <
      (addr_to_file_offset mappings hdr.accelerateInfoAddr).toNat +
        accel.rangeTableOffset + accel.rangeTableCount * 16 then none
  else some accel

/-- Embeds get_local_symbols_info (main.c lines 247-285).  The struct content at
localSymbolsOffset is passed in as `li`; sizeof(local_symbols_info) = 24,
sizeof(nlist_64) = 16, sizeof(local_symbols_entry) = 12; localSymbolsOffset is
uint64 so the sum with 24 wraps mod 2 ^ 64. -/
def get_local_symbols_info (cacheSize : Nat) (hdr : CacheHeader)
    (li : LocalSymbolsInfo) : Option LocalSymbolsInfo :=
  if hdr.localSymbolsOffset = 0 ∨ hdr.localSymbolsSize = 0 then none
  else if cacheSize < (hdr.localSymbolsOffset + 24) % 2 ^ 64 then none
  else if hdr.localSymbolsSize < li.nlistOffset + li.nlistCount * 16 ∨
      hdr.localSymbolsSize < li.stringsOffset + li.stringsSize ∨
      hdr.localSymbolsSize < li.entriesOffset + li.entriesCount * 12 then none
  else some li

/-- The strncmp(header->magic, "dyld_v1", 7) == 0 check of main: the first
seven magic bytes are d y l d _ v 1. -/
def magicOK (magic : List Nat) : Bool :=
  magic.take 7 == [100, 121, 108, 100, 95, 118, 49]

/-- The mapping-table bound check of main (lines 813-820):
sizeof(dyld_cache_mapping_info) = 32; the size_t product is taken mod 2 ^ 64;
the subtraction is only reached when mappingOffset ≤ cacheSize, where Nat
subtraction agrees with size_t subtraction. -/
def checkMappingBounds (cacheSize : Nat) (hdr : CacheHeader) : Prop :=
  hdr.mappingOffset > cacheSize ∨
    hdr.mappingCount * 32 % 2 ^ 64 > cacheSize - hdr.mappingOffset

instance (sz : Nat) (hdr : CacheHeader) : Decidable (checkMappingBounds sz hdr) :=
  inferInstanceAs (Decidable (_ ∨ _))

/-- The image-table bound check of main (lines 822-829):
sizeof(dyld_cache_image_info) = 32. -/
def checkImagesBounds (cacheSize : Nat) (hdr : CacheHeader) : Prop :=
  hdr.imagesOffset > cacheSize ∨
    hdr.imagesCount * 32 % 2 ^ 64 > cacheSize - hdr.imagesOffset

instance (sz : Nat) (hdr : CacheHeader) : Decidable (checkImagesBounds sz hdr) :=
  inferInstanceAs (Decidable (_ ∨ _))

/-- The per-mapping file-range validation of main (lines 838-845). -/
def mappingRangesOK (cacheSize : Nat) (mappings : List MappingInfo) : Bool :=
  mappings.all (fun m =>
    decide (m.fileOffset ≤ cacheSize) && decide (m.size ≤ cacheSize - m.fileOffset))

/-- Wrapping uint64 subtraction a - b for a b < 2 ^ 64, used for the printed
offsets in main. -/
def sub64 (a b : Nat) : Nat := (2 ^ 64 + a - b) % 2 ^ 64

/-- Outcome of a run of main after the file is mapped: each err constructor is
one of the fprintf/return 1 exits, the two resolved constructors are the
success outputs (path is the byte string of the image path). -/
inductive MainResult where
  | errTooSmall
  | errBadMagic
  | errMappingBounds
  | errImagesBounds
  | errMappingRange
  | errNoAccel
  | errAddrNotFound
  | errBadPathOffset
  | errPathNotTerminated
  | resolvedSymbol (imageIdx : Nat) (path : List Nat) (strx : Nat)
      (symAddr : Nat) (offset : Nat)
  | resolvedImageOnly (imageIdx : Nat) (path : List Nat) (offset : Nat)
deriving DecidableEq, Repr

/-- View of the mapped cache file as main consumes it: the size, the header
fields, and for each table the record content that the buffer holds at the
location the header declares.  `dylibAt` gives the embedded-symbol-table view
parsed at a file offset (see search_dylib_symbol_table); `pathAt` gives the
NUL-terminated byte string at a file offset, or none when no NUL occurs within
the buffer. -/
structure CacheView where
  cacheSize : Nat
  header : CacheHeader
  mappings : List MappingInfo
  images : List ImageInfo
  accel : AcceleratorInfo
  localInfo : LocalSymbolsInfo
  localEntries : List LocalSymbolsEntry
  localNlist : List Nlist64
  rangeTable : List RangeEntry
  dylibAt : Nat → Option (List Nlist64 × Nat)
  pathAt : Nat → Option (List Nat)

/-- Embeds main (main.c lines 789-956) from the point where the file is mapped:
header size check (sizeof(dyld_cache_header) = 152), magic check, table bound
checks, per-mapping range validation, accelerator requirement, lookup, and
output selection. -/
def runMain (v : CacheView) (target : Nat) : MainResult :=
  if v.cacheSize < 152 then .errTooSmall
  else if ¬ magicOK v.header.magic then .errBadMagic
  else if checkMappingBounds v.cacheSize v.header then .errMappingBounds
  else if checkImagesBounds v.cacheSize v.header then .errImagesBounds
  else if ¬ mappingRangesOK v.cacheSize v.mappings then .errMappingRange
  else
    match get_accelerator_info v.cacheSize v.header v.mappings v.accel with
    | none => .errNoAccel
    | some _ =>
      let localView : Option LocalSymbolsView :=
        match get_local_symbols_info v.cacheSize v.header v.localInfo with
        | none => none
        | some _ => some ⟨v.localEntries, v.localNlist⟩
      let r := find_symbol_for_address v.mappings v.images localView
        v.rangeTable v.dylibAt target
      if r.imageIndex < 0 then .errAddrNotFound
      else
        let image := v.images.getD r.imageIndex.toNat default
        if v.cacheSize ≤ image.pathFileOffset then .errBadPathOffset
        else
          match v.pathAt image.pathFileOffset with
          | none => .errPathNotTerminated
          | some path =>
            if r.found then
              match r.symbolName with
              | some nm =>
                .resolvedSymbol r.imageIndex.toNat path nm r.symbolAddr
                  (sub64 target r.symbolAddr)
              | none =>
                .resolvedImageOnly r.imageIndex.toNat path
                  (sub64 target image.address)
            else
              .resolvedImageOnly r.imageIndex.toNat path
                (sub64 target image.address)

/-- The error outcomes of runMain that are validation failures (malformed or
unsupported input), as opposed to lookup outcomes. -/
def isValidationError : MainResult → Bool
  | .errTooSmall | .errBadMagic | .errMappingBounds | .errImagesBounds
  | .errMappingRange | .errNoAccel => true
  | _ => false

/-! Concrete fixtures used by the witness and counterexample theorems below. -/

/-- One mapping: virtual [0x1000, 0x2000) backed at file offset 0. -/
def fxMappings : List MappingInfo := [⟨0x1000, 0x1000, 0, 3, 3⟩]

/-- One image loaded at 0x1000 (its Mach-O header translates to file offset 0). -/
def fxImages : List ImageInfo := [⟨0x1000, 0, 0, 10, 0⟩]

/-- One image whose load address 0x5000 lies outside every mapping. -/
def fxImagesMiss : List ImageInfo := [⟨0x5000, 0, 0, 10, 0⟩]

/-- One range entry: [0x1000, 0x2000) owned by image 0. -/
def fxRange : List RangeEntry := [⟨0x1000, 0x1000, 0⟩]

/-- Embedded symbol table of the fixture dylib: one eligible symbol named by
strx 1 at address 0x1100. -/
def fxDylibAt : Nat → Option (List Nlist64 × Nat) :=
  fun o => if o = 0 then some ([⟨1, 0x0e, 1, 0, 0x1100⟩], 100) else none

/-- Local-symbols view whose best match for image 0 also has value 0x1100
(named by strx 2): the equal-value merge case. -/
def fxLocalView : LocalSymbolsView := ⟨[⟨0, 0, 1⟩], [⟨2, 0x0e, 1, 0, 0x1100⟩]⟩

/-- Local-symbols view whose only symbol for image 0 has value 0. -/
def fxLocalViewZero : LocalSymbolsView := ⟨[⟨0, 0, 1⟩], [⟨2, 0x0e, 1, 0, 0⟩]⟩

/-- A header that passes every validation of main for the fixture cache below. -/
def fxHeader : CacheHeader :=
  ⟨[100, 121, 108, 100, 95, 118, 49, 32, 32, 32, 97, 114, 109, 54, 52, 0],
    152, 1, 184, 1, 0, 0, 0x1800, 100⟩

/-- Accelerator info content: version 1, range table at offset 0 with 1 entry. -/
def fxAccel : AcceleratorInfo := ⟨1, 0, 1⟩

/-- Local-symbols info content that is never consulted (header offset 0). -/
def fxLocalInfoZero : LocalSymbolsInfo := ⟨0, 0, 0, 0, 0, 0⟩

/-- A cache view that passes all validations, whose range table owns
[0x1000, 0x2000) for image 0, but whose image load address 0x5000 does not
translate through the mapping table. -/
def fxCvMiss : CacheView :=
  ⟨0x2000, fxHeader, fxMappings, fxImagesMiss, fxAccel, fxLocalInfoZero,
    [], [], fxRange, fun _ => none, fun _ => some [47, 97]⟩

/-- A sorted, non-overlapping two-entry range table. -/
def fxSorted2 : List RangeEntry := [⟨0x1000, 0x1000, 3⟩, ⟨0x2000, 0x100, 7⟩]

/-- A cache view whose header declares a zero accelerator address. -/
def fxCvNoAccel : CacheView :=
  ⟨0, ⟨List.replicate 16 0, 0, 0, 0, 0, 0, 0, 0, 0⟩, [], [], ⟨0, 0, 0⟩,
    ⟨0, 0, 0, 0, 0, 0⟩, [], [], [], fun _ => none, fun _ => none⟩

/-- A 200-byte cache whose header declares 2 ^ 31 mapping entries at offset
152: the mapping table cannot fit. -/
def fxCvHugeCount : CacheView :=
  ⟨200, ⟨[100, 121, 108, 100, 95, 118, 49, 32, 32, 32, 97, 114, 109, 54, 52, 0],
    152, 2 ^ 31, 152, 0, 0, 0, 0, 0⟩, [], [], ⟨0, 0, 0⟩,
    ⟨0, 0, 0, 0, 0, 0⟩, [], [], [], fun _ => none, fun _ => none⟩

/-! General helper lemmas. -/

/-- Membership of an in-bounds getD access. -/
theorem listGetD_mem {α : Type} [Inhabited α] (l : List α) :
    ∀ k, k < l.length → l.getD k default ∈ l := by
  induction l with
  | nil => intro k h; simp at h
  | cons a t ih =>
    intro k h
    cases k with
    | zero => simp
    | succ k => simpa using List.mem_cons_of_mem a (ih k (by simpa using h))

/-- Every member is an in-bounds getD access. -/
theorem mem_listGetD {α : Type} [Inhabited α] (l : List α) :
    ∀ a ∈ l, ∃ k, k < l.length ∧ l.getD k default = a := by
  induction l with
  | nil => intro a h; simp at h
  | cons x t ih =>
    intro a h
    rcases List.mem_cons.mp h with h | h
    · exact ⟨0, by simp, by simp [h]⟩
    · rcases ih a h with ⟨k, hk, hget⟩
      exact ⟨k + 1, by simpa using hk, by simpa using hget⟩

/-- The int64 cast is the identity below 2 ^ 63. -/
theorem toInt64_small {n : Nat} (h : n < 2 ^ 63) : toInt64 n = (n : Int) := by
  have h64 : n < 2 ^ 64 := lt_trans h (by norm_num)
  unfold toInt64
  rw [Nat.mod_eq_of_lt h64, if_pos h]

/-- C6 counterexample: the mapping [2 ^ 64 - 16, 2 ^ 64) contains the address
2 ^ 64 - 16 in the sense of the claim, yet addr_to_file_offset returns -1
instead of fileOffset + (addr - start) = 0, because the uint64 sum
start + size wraps to 0. -/
theorem translate_wrap_counterexample :
    mapContainsSpec ⟨2 ^ 64 - 16, 16, 0, 3, 3⟩ (2 ^ 64 - 16) = true ∧
    addr_to_file_offset [⟨2 ^ 64 - 16, 16, 0, 3, 3⟩] (2 ^ 64 - 16) = -1 ∧
    (-1 : Int) ≠ (0 : Int) := by
  decide

/-- C6 amended: provided every mapping entry satisfies start + size < 2 ^ 64,
addr_to_file_offset returns fileOffset + (addr - start) for the first entry
(in table order) whose interval [start, start + size) contains the address —
when that value fits in int64 — and -1 when no entry contains it. -/
theorem translate_first_mapping (maps : List MappingInfo) (a : Nat)
    (hw : ∀ m ∈ maps, m.address + m.size < 2 ^ 64) :
    (maps.find? (fun m => mapContainsSpec m a) = none →
      addr_to_file_offset maps a = -1) ∧
    (∀ m, maps.find? (fun m => mapContainsSpec m a) = some m →
      m.fileOffset + (a - m.address) < 2 ^ 63 →
      addr_to_file_offset maps a = ((m.fileOffset + (a - m.address) : Nat) : Int)) := by
  induction maps with
  | nil =>
    refine ⟨fun _ => rfl, fun m hm => ?_⟩
    simp [List.find?] at hm
  | cons hd t ih =>
    have hwh : hd.address + hd.size < 2 ^ 64 := hw hd (by simp)
    have hwt : ∀ m ∈ t, m.address + m.size < 2 ^ 64 :=
      fun m hm => hw m (List.mem_cons_of_mem _ hm)
    have hmod : (hd.address + hd.size) % 2 ^ 64 = hd.address + hd.size :=
      Nat.mod_eq_of_lt hwh
    by_cases hc : mapContainsSpec hd a = true
    · constructor
      · intro hfind
        simp only [List.find?, hc] at hfind
        exact Option.noConfusion hfind
      · intro m hfind hsmall
        simp only [List.find?, hc] at hfind
        injection hfind with hfind
        subst hfind
        have hcond : hd.address ≤ a ∧ a < (hd.address + hd.size) % 2 ^ 64 := by
          rw [hmod]
          simpa [mapContainsSpec] using hc
        simp only [addr_to_file_offset]
        rw [if_pos hcond]
        exact toInt64_small hsmall
    · have hcond : ¬ (hd.address ≤ a ∧ a < (hd.address + hd.size) % 2 ^ 64) := by
        rw [hmod]
        simpa [mapContainsSpec] using hc
      rw [Bool.not_eq_true] at hc
      constructor
      · intro hfind
        simp only [List.find?, hc] at hfind
        simp only [addr_to_file_offset, if_neg hcond]
        exact (ih hwt).1 hfind
      · intro m hfind hsmall
        simp only [List.find?, hc] at hfind
        simp only [addr_to_file_offset, if_neg hcond]
        exact (ih hwt).2 m hfind hsmall

/-- Witness for the C6 amended theorem at a concrete mapping table. -/
theorem translate_first_mapping_witness :
    addr_to_file_offset [⟨0x1000, 0x1000, 0x40, 3, 3⟩] 0x1800 =
      ((0x40 + (0x1800 - 0x1000) : Nat) : Int) :=
  (translate_first_mapping [⟨0x1000, 0x1000, 0x40, 3, 3⟩] 0x1800 (by decide)).2
    ⟨0x1000, 0x1000, 0x40, 3, 3⟩ (by decide) (by decide)

/-! Lemmas about sorted, non-overlapping range tables and the binary search. -/

/-- A member of a table without wrapping entries has an exact uint64 end. -/
theorem noWrap_mem {t : List RangeEntry} {e : RangeEntry} (hw : NoWrapRanges t)
    (he : e ∈ t) : endTrue e < 2 ^ 64 := by
  have := List.all_eq_true.mp hw e he
  simpa using this

/-- The tail of a sorted table is sorted. -/
theorem sorted_tail {x : RangeEntry} {t : List RangeEntry}
    (hs : SortedRanges (x :: t)) : SortedRanges t := by
  cases t with
  | nil => rfl
  | cons y t2 =>
    simp only [SortedRanges, sortedRangesB, Bool.and_eq_true] at hs
    exact hs.2

/-- Consecutive entries of a sorted table: one ends at or before the next
starts. -/
theorem sorted_consec (t : List RangeEntry) :
    SortedRanges t → ∀ i, i + 1 < t.length →
    endTrue (t.getD i default) ≤ (t.getD (i + 1) default).startAddress := by
  induction t with
  | nil => intro _ i h; simp at h
  | cons x t ih =>
    intro hs i h
    cases i with
    | zero =>
      cases t with
      | nil => simp at h
      | cons y t2 =>
        have hxy : endTrue x ≤ y.startAddress := by
          simp only [SortedRanges, sortedRangesB, Bool.and_eq_true,
            decide_eq_true_eq] at hs
          exact hs.1
        simpa using hxy
    | succ i =>
      have hs' : SortedRanges t := sorted_tail hs
      have hlen : i + 1 < t.length := by simpa using h
      simpa using ih hs' i hlen

/-- Start addresses are monotone over a sorted table. -/
theorem sorted_start_le (t : List RangeEntry) (hs : SortedRanges t) :
    ∀ i j, i ≤ j → j < t.length →
    (t.getD i default).startAddress ≤ (t.getD j default).startAddress := by
  intro i j hij
  induction j, hij using Nat.le_induction with
  | base => intro _; exact le_refl _
  | succ j hij ih =>
    intro hj1
    have hj : j < t.length := by omega
    have h1 := ih hj
    have h2 := sorted_consec t hs j hj1
    have h3 : (t.getD j default).startAddress ≤ endTrue (t.getD j default) := by
      unfold endTrue; omega
    omega

/-- An earlier entry ends at or before a later entry starts. -/
theorem sorted_end_le_start (t : List RangeEntry) (hs : SortedRanges t) :
    ∀ i j, i < j → j < t.length →
    endTrue (t.getD i default) ≤ (t.getD j default).startAddress := by
  intro i j hij hj
  have hi1 : i + 1 < t.length := lt_of_le_of_lt hij hj
  have h2 := sorted_consec t hs i hi1
  have h3 := sorted_start_le t hs (i + 1) j hij hj
  omega

/-- At most one entry of a sorted, non-overlapping table contains an address. -/
theorem ranges_unique (t : List RangeEntry) (hs : SortedRanges t) {i j a : Nat}
    (hi : i < t.length) (hj : j < t.length)
    (hci : containsAddr (t.getD i default) a = true)
    (hcj : containsAddr (t.getD j default) a = true) : i = j := by
  have hci' : (t.getD i default).startAddress ≤ a ∧ a < endTrue (t.getD i default) := by
    simpa [containsAddr] using hci
  have hcj' : (t.getD j default).startAddress ≤ a ∧ a < endTrue (t.getD j default) := by
    simpa [containsAddr] using hcj
  rcases lt_trichotomy i j with h | h | h
  · have := sorted_end_le_start t hs i j h hj
    omega
  · exact h
  · have := sorted_end_le_start t hs j i h hi
    omega

/-- Soundness of the binary-search loop: a returned entry is an in-window table
entry that contains the address in the sense of the wrapped upper bound. -/
theorem bsGo_sound (t : List RangeEntry) (a : Nat) :
    ∀ fuel low high r, high ≤ t.length → bsGo t a fuel low high = some r →
    ∃ k, low ≤ k ∧ k < high ∧ t.getD k default = r ∧
      r.startAddress ≤ a ∧ a < rangeEnd r := by
  intro fuel
  induction fuel with
  | zero => intro low high r _ h; exact Option.noConfusion h
  | succ fuel ih =>
    intro low high r hhigh h
    simp only [bsGo] at h
    by_cases hlh : low < high
    · rw [if_pos hlh] at h
      have hmidlt : low + (high - low) / 2 < high := by omega
      by_cases h1 : a < (t.getD (low + (high - low) / 2) default).startAddress
      · rw [if_pos h1] at h
        rcases ih low (low + (high - low) / 2) r
          (le_trans (le_of_lt hmidlt) hhigh) h with ⟨k, hk1, hk2, hk3⟩
        exact ⟨k, hk1, by omega, hk3⟩
      · rw [if_neg h1] at h
        by_cases h2 : rangeEnd (t.getD (low + (high - low) / 2) default) ≤ a
        · rw [if_pos h2] at h
          rcases ih (low + (high - low) / 2 + 1) high r hhigh h with ⟨k, hk1, hk2, hk3⟩
          exact ⟨k, by omega, hk2, hk3⟩
        · rw [if_neg h2] at h
          injection h with h
          subst h
          exact ⟨low + (high - low) / 2, by omega, hmidlt, rfl, by omega, by omega⟩
    · rw [if_neg hlh] at h
      exact Option.noConfusion h

/-- Completeness of the binary-search loop: on a sorted, non-wrapping table,
if the loop returns none while every entry left of the window ends at or
before the address and every entry right of the window starts after it, then
no entry of the table contains the address. -/
theorem bsGo_complete (t : List RangeEntry) (a : Nat) (hs : SortedRanges t)
    (hw : NoWrapRanges t) :
    ∀ fuel low high, high - low ≤ fuel → high ≤ t.length →
    (∀ k, k < low → k < t.length → endTrue (t.getD k default) ≤ a) →
    (∀ k, high ≤ k → k < t.length → a < (t.getD k default).startAddress) →
    bsGo t a fuel low high = none →
    ∀ k, k < t.length → containsAddr (t.getD k default) a = false := by
  intro fuel
  induction fuel with
  | zero =>
    intro low high hfuel _ hleft hright _ k hk
    rcases (by omega : k < low ∨ high ≤ k) with h | h
    · have := hleft k h hk
      simp only [containsAddr]
      simp only [Bool.and_eq_false_iff, decide_eq_false_iff_not]
      omega
    · have := hright k h hk
      simp only [containsAddr]
      simp only [Bool.and_eq_false_iff, decide_eq_false_iff_not]
      omega
  | succ fuel ih =>
    intro low high hfuel hhigh hleft hright hnone k hk
    simp only [bsGo] at hnone
    by_cases hlh : low < high
    · rw [if_pos hlh] at hnone
      have hmidlt : low + (high - low) / 2 < high := by omega
      have hmidlen : low + (high - low) / 2 < t.length := lt_of_lt_of_le hmidlt hhigh
      have hmem := listGetD_mem t (low + (high - low) / 2) hmidlen
      have hrange : rangeEnd (t.getD (low + (high - low) / 2) default) =
          endTrue (t.getD (low + (high - low) / 2) default) :=
        Nat.mod_eq_of_lt (noWrap_mem hw hmem)
      by_cases h1 : a < (t.getD (low + (high - low) / 2) default).startAddress
      · rw [if_pos h1] at hnone
        refine ih low (low + (high - low) / 2) (by omega) (le_of_lt hmidlen)
          hleft ?_ hnone k hk
        intro k2 hk2 hk2len
        exact lt_of_lt_of_le h1 (sorted_start_le t hs _ k2 hk2 hk2len)
      · rw [if_neg h1] at hnone
        by_cases h2 : rangeEnd (t.getD (low + (high - low) / 2) default) ≤ a
        · rw [if_pos h2] at hnone
          rw [hrange] at h2
          refine ih (low + (high - low) / 2 + 1) high (by omega) hhigh ?_
            hright hnone k hk
          intro k2 hk2 hk2len
          rcases Nat.lt_or_ge k2 (low + (high - low) / 2) with h3 | h3
          · have h4 := sorted_end_le_start t hs k2 _ h3 hmidlen
            have h5 : (t.getD (low + (high - low) / 2) default).startAddress ≤
                endTrue (t.getD (low + (high - low) / 2) default) := by
              unfold endTrue; omega
            omega
          · have h6 : k2 = low + (high - low) / 2 := by omega
            rw [h6]
            exact h2
        · rw [if_neg h2] at hnone
          exact Option.noConfusion hnone
    · rcases (by omega : k < low ∨ high ≤ k) with h | h
      · have := hleft k h hk
        simp only [containsAddr]
        simp only [Bool.and_eq_false_iff, decide_eq_false_iff_not]
        omega
      · have := hright k h hk
        simp only [containsAddr]
        simp only [Bool.and_eq_false_iff, decide_eq_false_iff_not]
        omega

/-- Soundness of binary_search_range_table. -/
theorem binary_search_sound (t : List RangeEntry) (a : Nat) (r : RangeEntry)
    (h : binary_search_range_table t a = some r) :
    ∃ k, k < t.length ∧ t.getD k default = r ∧
      r.startAddress ≤ a ∧ a < rangeEnd r := by
  rcases bsGo_sound t a t.length 0 t.length r (le_refl _) h with
    ⟨k, _, hk2, hk3, hk4, hk5⟩
  exact ⟨k, hk2, hk3, hk4, hk5⟩

/-- Completeness of binary_search_range_table on a sorted, non-wrapping table. -/
theorem binary_search_complete (t : List RangeEntry) (a : Nat)
    (hs : SortedRanges t) (hw : NoWrapRanges t)
    (h : binary_search_range_table t a = none) :
    ∀ k, k < t.length → containsAddr (t.getD k default) a = false :=
  bsGo_complete t a hs hw t.length 0 t.length (by omega) (le_refl _)
    (fun k hk _ => absurd hk (Nat.not_lt_zero k))
    (fun k hk hklen => absurd hklen (by omega)) h

/-- C4 counterexample: the single-entry table [2 ^ 64 - 16, 2 ^ 64) is sorted
and non-overlapping and the address 2 ^ 64 - 16 lies inside [s, s + z), yet
find_owning_image misses it, because the uint64 upper bound s + z wraps to 0
and every probe sends the search right. -/
theorem range_halfopen_counterexample :
    SortedRanges [⟨2 ^ 64 - 16, 16, 0⟩] ∧
    (⟨2 ^ 64 - 16, 16, 0⟩ : RangeEntry).startAddress ≤ 2 ^ 64 - 16 ∧
    2 ^ 64 - 16 < (⟨2 ^ 64 - 16, 16, 0⟩ : RangeEntry).startAddress +
      (⟨2 ^ 64 - 16, 16, 0⟩ : RangeEntry).size ∧
    findOwningImage [⟨2 ^ 64 - 16, 16, 0⟩] (2 ^ 64 - 16) = none := by
  decide

/-- C4 (amended): in a sorted, non-overlapping range table all of whose entries
satisfy start + size < 2 ^ 64, find_owning_image returns the image index of
entry i for every address in [s, s + z), and the binary search does not return
entry i at the address s + z exactly (half-open upper bound). -/
theorem range_halfopen_amended (t : List RangeEntry) (i a : Nat)
    (hs : SortedRanges t) (hw : NoWrapRanges t) (hi : i < t.length)
    (hlo : (t.getD i default).startAddress ≤ a)
    (hhi : a < (t.getD i default).startAddress + (t.getD i default).size) :
    findOwningImage t a = some (t.getD i default).imageIndex ∧
    binary_search_range_table t
      ((t.getD i default).startAddress + (t.getD i default).size) ≠
      some (t.getD i default) := by
  constructor
  · unfold findOwningImage
    cases hb : binary_search_range_table t a with
    | none =>
      have hall := binary_search_complete t a hs hw hb i hi
      have hci : containsAddr (t.getD i default) a = true := by
        simp only [containsAddr, endTrue, Bool.and_eq_true, decide_eq_true_eq]
        omega
      rw [hci] at hall
      exact Bool.noConfusion hall
    | some r =>
      rcases binary_search_sound t a r hb with ⟨k, hk, hkr, hr1, hr2⟩
      have hmem := listGetD_mem t k hk
      have hrw : rangeEnd r = endTrue r := by
        refine Nat.mod_eq_of_lt (noWrap_mem hw ?_)
        rw [← hkr]
        exact hmem
      have hck : containsAddr (t.getD k default) a = true := by
        rw [hkr]
        simp only [containsAddr, Bool.and_eq_true, decide_eq_true_eq]
        exact ⟨hr1, hrw ▸ hr2⟩
      have hci : containsAddr (t.getD i default) a = true := by
        simp only [containsAddr, endTrue, Bool.and_eq_true, decide_eq_true_eq]
        omega
      have hki : k = i := ranges_unique t hs hk hi hck hci
      have hri : r = t.getD i default := by rw [← hkr, hki]
      simp [hri]
  · intro hsome
    rcases binary_search_sound t _ _ hsome with ⟨k, hk, hkr, hr1, hr2⟩
    have hrw : rangeEnd (t.getD i default) = endTrue (t.getD i default) :=
      Nat.mod_eq_of_lt (noWrap_mem hw (listGetD_mem t i hi))
    rw [hrw] at hr2
    unfold endTrue at hr2
    omega

/-- Witness for the C4 amended theorem at a concrete two-entry table. -/
theorem range_halfopen_witness :
    findOwningImage fxSorted2 0x1234 = some (fxSorted2.getD 0 default).imageIndex ∧
    binary_search_range_table fxSorted2
      ((fxSorted2.getD 0 default).startAddress + (fxSorted2.getD 0 default).size) ≠
      some (fxSorted2.getD 0 default) :=
  range_halfopen_amended fxSorted2 0 0x1234 (by decide) (by decide) (by decide)
    (by decide) (by decide)

/-- C5 counterexample: on the sorted, non-overlapping single-entry table
[2 ^ 64 - 16, 2 ^ 64) the binary search disagrees with the linear reference
scan at the address 2 ^ 64 - 16 (the reference finds image 0, the binary
search reports a miss because the uint64 upper bound wraps). -/
theorem binary_linear_counterexample :
    SortedRanges [⟨2 ^ 64 - 16, 16, 0⟩] ∧
    linearRefScan [⟨2 ^ 64 - 16, 16, 0⟩] (2 ^ 64 - 16) = some 0 ∧
    findOwningImage [⟨2 ^ 64 - 16, 16, 0⟩] (2 ^ 64 - 16) ≠
      linearRefScan [⟨2 ^ 64 - 16, 16, 0⟩] (2 ^ 64 - 16) := by
  decide

/-- C5 (amended): on every sorted, non-overlapping range table all of whose
entries satisfy start + size < 2 ^ 64, the binary search agrees with the
linear reference scan at every address. -/
theorem binary_linear_agree (t : List RangeEntry) (hs : SortedRanges t)
    (hw : NoWrapRanges t) (a : Nat) :
    findOwningImage t a = linearRefScan t a := by
  unfold findOwningImage linearRefScan
  cases hb : binary_search_range_table t a with
  | none =>
    have hall := binary_search_complete t a hs hw hb
    have hfind : t.find? (fun e => containsAddr e a) = none := by
      rw [List.find?_eq_none]
      intro x hx
      rcases mem_listGetD t x hx with ⟨k, hk, hgk⟩
      have hx2 := hall k hk
      rw [hgk] at hx2
      simp [hx2]
    rw [hfind]
  | some r =>
    rcases binary_search_sound t a r hb with ⟨k, hk, hkr, hr1, hr2⟩
    have hmem : r ∈ t := by
      rw [← hkr]
      exact listGetD_mem t k hk
    have hrw : rangeEnd r = endTrue r := Nat.mod_eq_of_lt (noWrap_mem hw hmem)
    have hck : containsAddr (t.getD k default) a = true := by
      rw [hkr]
      simp only [containsAddr, Bool.and_eq_true, decide_eq_true_eq]
      exact ⟨hr1, hrw ▸ hr2⟩
    cases hf : t.find? (fun e => containsAddr e a) with
    | none =>
      rw [List.find?_eq_none] at hf
      exact absurd hck (hf (t.getD k default) (listGetD_mem t k hk))
    | some y =>
      have hy := List.find?_some hf
      have hymem : y ∈ t := List.mem_of_find?_eq_some hf
      rcases mem_listGetD t y hymem with ⟨j, hj, hgj⟩
      have hcj : containsAddr (t.getD j default) a = true := by
        rw [hgj]
        simpa using hy
      have hkj : k = j := ranges_unique t hs hk hj hck hcj
      have : y = r := by rw [← hgj, ← hkj, hkr]
      simp [this]

/-- Witness for the C5 amended theorem at a concrete two-entry table. -/
theorem binary_linear_agree_witness :
    findOwningImage fxSorted2 0x2050 = linearRefScan fxSorted2 0x2050 :=
  binary_linear_agree fxSorted2 (by decide) (by decide) 0x2050

/-! Lemmas about the two symbol-scan loops. -/

/-- If the shared-table scan returns nothing, the accumulator was empty and no
scanned entry was eligible. -/
theorem searchSymGo_eq_none (tgt : Nat) :
    ∀ (l : List Nlist64) (acc : Option Nlist64),
    searchSymGo tgt l acc = none →
    acc = none ∧ ∀ x ∈ l, eligible x tgt = false := by
  intro l
  induction l with
  | nil =>
    intro acc h
    simp only [searchSymGo] at h
    exact ⟨h, by simp⟩
  | cons s rest ih =>
    intro acc h
    simp only [searchSymGo] at h
    by_cases he : eligible s tgt = true
    · rw [if_pos he] at h
      cases acc with
      | none => exact absurd (ih (some s) h).1 (by simp)
      | some b =>
        dsimp only at h
        by_cases hv : b.n_value < s.n_value
        · rw [if_pos hv] at h
          exact absurd (ih (some s) h).1 (by simp)
        · rw [if_neg hv] at h
          exact absurd (ih (some b) h).1 (by simp)
    · rw [if_neg he] at h
      rcases ih acc h with ⟨h1, h2⟩
      refine ⟨h1, ?_⟩
      intro x hx
      rcases List.mem_cons.mp hx with hx | hx
      · rw [hx]
        simpa using he
      · exact h2 x hx

/-- If the shared-table scan returns a symbol, it is an eligible scanned entry
(or the accumulator), and its value dominates every eligible scanned entry and
the accumulator. -/
theorem searchSymGo_some_spec (tgt : Nat) :
    ∀ (l : List Nlist64) (acc : Option Nlist64) (r : Nlist64),
    searchSymGo tgt l acc = some r →
    ((r ∈ l ∧ eligible r tgt = true) ∨ acc = some r) ∧
    (∀ x ∈ l, eligible x tgt = true → x.n_value ≤ r.n_value) ∧
    (∀ b, acc = some b → b.n_value ≤ r.n_value) := by
  intro l
  induction l with
  | nil =>
    intro acc r h
    simp only [searchSymGo] at h
    refine ⟨Or.inr h, by simp, ?_⟩
    intro b hb
    rw [hb] at h
    injection h with h
    exact le_of_eq (congrArg Nlist64.n_value h)
  | cons s rest ih =>
    intro acc r h
    simp only [searchSymGo] at h
    by_cases he : eligible s tgt = true
    · rw [if_pos he] at h
      cases acc with
      | none =>
        rcases ih (some s) r h with ⟨h1, h2, h3⟩
        have hsv : s.n_value ≤ r.n_value := h3 s rfl
        refine ⟨?_, ?_, by simp⟩
        · rcases h1 with h1 | h1
          · exact Or.inl ⟨List.mem_cons_of_mem s h1.1, h1.2⟩
          · injection h1 with h1
            exact Or.inl ⟨by rw [← h1]; simp, by rw [← h1]; exact he⟩
        · intro x hx hex
          rcases List.mem_cons.mp hx with hx | hx
          · rw [hx]; exact hsv
          · exact h2 x hx hex
      | some b =>
        dsimp only at h
        by_cases hv : b.n_value < s.n_value
        · rw [if_pos hv] at h
          rcases ih (some s) r h with ⟨h1, h2, h3⟩
          have hsv : s.n_value ≤ r.n_value := h3 s rfl
          refine ⟨?_, ?_, ?_⟩
          · rcases h1 with h1 | h1
            · exact Or.inl ⟨List.mem_cons_of_mem s h1.1, h1.2⟩
            · injection h1 with h1
              exact Or.inl ⟨by rw [← h1]; simp, by rw [← h1]; exact he⟩
          · intro x hx hex
            rcases List.mem_cons.mp hx with hx | hx
            · rw [hx]; exact hsv
            · exact h2 x hx hex
          · intro b2 hb2
            injection hb2 with hb2
            rw [← hb2]
            omega
        · rw [if_neg hv] at h
          rcases ih (some b) r h with ⟨h1, h2, h3⟩
          have hbv : b.n_value ≤ r.n_value := h3 b rfl
          have hsv : s.n_value ≤ r.n_value := by omega
          refine ⟨?_, ?_, ?_⟩
          · rcases h1 with h1 | h1
            · exact Or.inl ⟨List.mem_cons_of_mem s h1.1, h1.2⟩
            · exact Or.inr h1
          · intro x hx hex
            rcases List.mem_cons.mp hx with hx | hx
            · rw [hx]; exact hsv
            · exact h2 x hx hex
          · intro b2 hb2
            injection hb2 with hb2
            rw [← hb2]
            exact hbv
    · rw [if_neg he] at h
      rcases ih acc r h with ⟨h1, h2, h3⟩
      refine ⟨?_, ?_, h3⟩
      · rcases h1 with h1 | h1
        · exact Or.inl ⟨List.mem_cons_of_mem s h1.1, h1.2⟩
        · exact Or.inr h1
      · intro x hx hex
        rcases List.mem_cons.mp hx with hx | hx
        · rw [hx] at hex
          exact absurd hex (by simp [he])
        · exact h2 x hx hex

/-- The best address of the embedded-table scan never decreases. -/
theorem dylibScanGo_addr_mono (strsize tgt : Nat) :
    ∀ (l : List Nlist64) (st : BestState),
    st.bestAddr ≤ (dylibScanGo strsize tgt l st).bestAddr := by
  intro l
  induction l with
  | nil => intro st; exact le_refl _
  | cons s rest ih =>
    intro st
    simp only [dylibScanGo]
    by_cases he : eligibleA s strsize tgt = true
    · rw [if_pos he]
      by_cases hc : (st.bestAddr == 0 || decide (st.bestAddr < s.n_value)) = true
      · rw [if_pos hc]
        have h1 : st.bestAddr ≤ s.n_value := by
          simp only [Bool.or_eq_true, beq_iff_eq, decide_eq_true_eq] at hc
          omega
        exact le_trans h1 (ih ⟨s.n_value, some s.n_strx, true⟩)
      · rw [if_neg hc]
        exact ih st
    · rw [if_neg he]
      exact ih st

/-- The found_better flag of the embedded-table scan never falls back to 0. -/
theorem dylibScanGo_found_mono (strsize tgt : Nat) :
    ∀ (l : List Nlist64) (st : BestState), st.foundBetter = true →
    (dylibScanGo strsize tgt l st).foundBetter = true := by
  intro l
  induction l with
  | nil => intro st h; exact h
  | cons s rest ih =>
    intro st h
    simp only [dylibScanGo]
    by_cases he : eligibleA s strsize tgt = true
    · rw [if_pos he]
      by_cases hc : (st.bestAddr == 0 || decide (st.bestAddr < s.n_value)) = true
      · rw [if_pos hc]
        exact ih ⟨s.n_value, some s.n_strx, true⟩ rfl
      · rw [if_neg hc]
        exact ih st h
    · rw [if_neg he]
      exact ih st h

/-- Every scanned entry that passes the embedded-table filter is dominated by
the final best address. -/
theorem dylibScanGo_ge (strsize tgt : Nat) :
    ∀ (l : List Nlist64) (st : BestState) (x : Nlist64), x ∈ l →
    eligibleA x strsize tgt = true →
    x.n_value ≤ (dylibScanGo strsize tgt l st).bestAddr := by
  intro l
  induction l with
  | nil => intro st x hx; simp at hx
  | cons s rest ih =>
    intro st x hx hex
    simp only [dylibScanGo]
    rcases List.mem_cons.mp hx with hx | hx
    · subst hx
      rw [if_pos hex]
      by_cases hc : (st.bestAddr == 0 || decide (st.bestAddr < x.n_value)) = true
      · rw [if_pos hc]
        exact dylibScanGo_addr_mono strsize tgt rest ⟨x.n_value, some x.n_strx, true⟩
      · rw [if_neg hc]
        have h1 : x.n_value ≤ st.bestAddr := by
          simp only [Bool.or_eq_true, beq_iff_eq, decide_eq_true_eq] at hc
          push_neg at hc
          omega
        exact le_trans h1 (dylibScanGo_addr_mono strsize tgt rest st)
    · by_cases he : eligibleA s strsize tgt = true
      · rw [if_pos he]
        by_cases hc : (st.bestAddr == 0 || decide (st.bestAddr < s.n_value)) = true
        · rw [if_pos hc]
          exact ih ⟨s.n_value, some s.n_strx, true⟩ x hx hex
        · rw [if_neg hc]
          exact ih st x hx hex
      · rw [if_neg he]
        exact ih st x hx hex

/-- The embedded-table scan either leaves the state untouched or ends on the
value and name of some scanned entry that passed the filter. -/
theorem dylibScanGo_result (strsize tgt : Nat) :
    ∀ (l : List Nlist64) (st : BestState),
    dylibScanGo strsize tgt l st = st ∨
    ∃ x, x ∈ l ∧ eligibleA x strsize tgt = true ∧
      (dylibScanGo strsize tgt l st).bestAddr = x.n_value ∧
      (dylibScanGo strsize tgt l st).bestName = some x.n_strx ∧
      (dylibScanGo strsize tgt l st).foundBetter = true := by
  intro l
  induction l with
  | nil => intro st; exact Or.inl rfl
  | cons s rest ih =>
    intro st
    simp only [dylibScanGo]
    by_cases he : eligibleA s strsize tgt = true
    · rw [if_pos he]
      by_cases hc : (st.bestAddr == 0 || decide (st.bestAddr < s.n_value)) = true
      · rw [if_pos hc]
        rcases ih ⟨s.n_value, some s.n_strx, true⟩ with h | h
        · right
          refine ⟨s, by simp, he, ?_⟩
          rw [h]
          exact ⟨rfl, rfl, rfl⟩
        · right
          rcases h with ⟨x, hx1, hrest⟩
          exact ⟨x, List.mem_cons_of_mem _ hx1, hrest⟩
      · rw [if_neg hc]
        rcases ih st with h | h
        · exact Or.inl h
        · right
          rcases h with ⟨x, hx1, hrest⟩
          exact ⟨x, List.mem_cons_of_mem _ hx1, hrest⟩
    · rw [if_neg he]
      rcases ih st with h | h
      · exact Or.inl h
      · right
        rcases h with ⟨x, hx1, hrest⟩
        exact ⟨x, List.mem_cons_of_mem _ hx1, hrest⟩

/-- Starting from the sentinel state, if the embedded-table scan reports no
find then no scanned entry passed the filter. -/
theorem dylibScanGo_notfound (strsize tgt : Nat) :
    ∀ (l : List Nlist64) (st : BestState), st.bestAddr = 0 →
    (dylibScanGo strsize tgt l st).foundBetter = false →
    ∀ x ∈ l, eligibleA x strsize tgt = false := by
  intro l
  induction l with
  | nil => intro st _ _ x hx; simp at hx
  | cons s rest ih =>
    intro st h0 hres x hx
    simp only [dylibScanGo] at hres
    by_cases he : eligibleA s strsize tgt = true
    · rw [if_pos he] at hres
      have hc : (st.bestAddr == 0 || decide (st.bestAddr < s.n_value)) = true := by
        simp [h0]
      rw [if_pos hc] at hres
      have hmono := dylibScanGo_found_mono strsize tgt rest
        ⟨s.n_value, some s.n_strx, true⟩ rfl
      rw [hmono] at hres
      exact Bool.noConfusion hres
    · rw [if_neg he] at hres
      rcases List.mem_cons.mp hx with hx | hx
      · rw [hx]
        simpa using he
      · exact ih st h0 hres x hx

/-- C2 counterexample: in the embedded-table scan the entry with n_strx 10,
type N_SECT and value 100 is eligible in the sense of the claim (no stab bits,
N_SECT, value below the target 200) and carries the maximum eligible value,
yet the scan (string-table size 5) skips it because its n_strx is out of
range, and returns the lower value 50 instead. -/
theorem scan_max_counterexample :
    eligible ⟨10, 0x0e, 1, 0, 100⟩ 200 = true ∧
    search_dylib_symbol_table
      (some ([⟨10, 0x0e, 1, 0, 100⟩, ⟨0, 0x0e, 1, 0, 50⟩], 5)) 200
      ⟨0, none, false⟩ = ⟨50, some 0, true⟩ ∧
    (50 : Nat) ≠ 100 := by
  decide

/-- C2 (amended): both scans select only eligible entries and return the
maximum eligible value, except that the embedded-table scan (Source A)
additionally skips entries whose n_strx is not below the string-table size;
its maximum, starting from the sentinel best address 0, ranges over the
remaining entries. -/
theorem scan_selection_amended (base : List Nlist64) (st cnt tgt : Nat)
    (r : Nlist64) (syms : List Nlist64) (strsize tgt2 : Nat) :
    (search_symbol_table base st cnt tgt = some r →
      eligible r tgt = true ∧ r ∈ (base.drop st).take cnt ∧
      ∀ x ∈ (base.drop st).take cnt, eligible x tgt = true →
        x.n_value ≤ r.n_value) ∧
    (search_symbol_table base st cnt tgt = none →
      ∀ x ∈ (base.drop st).take cnt, eligible x tgt = false) ∧
    (∀ x ∈ syms, eligibleA x strsize tgt2 = true →
      x.n_value ≤ (dylibScanGo strsize tgt2 syms ⟨0, none, false⟩).bestAddr) ∧
    ((dylibScanGo strsize tgt2 syms ⟨0, none, false⟩).foundBetter = true →
      ∃ x, x ∈ syms ∧ eligibleA x strsize tgt2 = true ∧
        (dylibScanGo strsize tgt2 syms ⟨0, none, false⟩).bestAddr = x.n_value ∧
        (dylibScanGo strsize tgt2 syms ⟨0, none, false⟩).bestName = some x.n_strx) ∧
    ((dylibScanGo strsize tgt2 syms ⟨0, none, false⟩).foundBetter = false →
      ∀ x ∈ syms, eligibleA x strsize tgt2 = false) := by
  refine ⟨?_, ?_, ?_, ?_, ?_⟩
  · intro h
    unfold search_symbol_table at h
    rcases searchSymGo_some_spec tgt _ none r h with ⟨h1, h2, _⟩
    rcases h1 with h1 | h1
    · exact ⟨h1.2, h1.1, h2⟩
    · exact absurd h1 (by simp)
  · intro h
    unfold search_symbol_table at h
    exact (searchSymGo_eq_none tgt _ none h).2
  · intro x hx hex
    exact dylibScanGo_ge strsize tgt2 syms ⟨0, none, false⟩ x hx hex
  · intro h
    rcases dylibScanGo_result strsize tgt2 syms ⟨0, none, false⟩ with hres | hres
    · rw [hres] at h
      exact Bool.noConfusion h
    · rcases hres with ⟨x, h1, h2, h3, h4, _⟩
      exact ⟨x, h1, h2, h3, h4⟩
  · intro h
    exact dylibScanGo_notfound strsize tgt2 syms ⟨0, none, false⟩ rfl h

/-- Witness for the C2 amended theorem: the shared-table scan on a singleton
window returns that entry, which is eligible and a member of the window. -/
theorem scan_selection_witness :
    eligible ⟨7, 0x0e, 1, 0, 60⟩ 100 = true ∧
    (⟨7, 0x0e, 1, 0, 60⟩ : Nlist64) ∈
      (([⟨7, 0x0e, 1, 0, 60⟩] : List Nlist64).drop 0).take 1 := by
  have h := (scan_selection_amended [⟨7, 0x0e, 1, 0, 60⟩] 0 1 100
    ⟨7, 0x0e, 1, 0, 60⟩ [] 0 0).1 (by decide)
  exact ⟨h.1, h.2.1⟩

/-- C10: the embedded-table scan is unchanged when the entries with
out-of-range n_strx are removed up front (they are skipped entirely, whatever
their value), while the shared local-symbols scan applies no string-table
filter: it selects a lone in-window eligible entry whatever its n_strx. -/
theorem strx_filter_only_sourceA :
    (∀ (strsize tgt : Nat) (syms : List Nlist64) (st : BestState),
      dylibScanGo strsize tgt syms st =
        dylibScanGo strsize tgt
          (syms.filter (fun s => decide (s.n_strx < strsize))) st) ∧
    (∀ (strx v tgt : Nat), v ≤ tgt →
      search_symbol_table [⟨strx, 0x0e, 1, 0, v⟩] 0 1 tgt =
        some ⟨strx, 0x0e, 1, 0, v⟩) := by
  constructor
  · intro strsize tgt syms
    induction syms with
    | nil => intro st; rfl
    | cons s rest ih =>
      intro st
      by_cases hstrx : s.n_strx < strsize
      · have hf : (s :: rest).filter (fun s => decide (s.n_strx < strsize)) =
            s :: rest.filter (fun s => decide (s.n_strx < strsize)) := by
          simp [List.filter_cons, hstrx]
        rw [hf]
        simp only [dylibScanGo]
        by_cases he : eligibleA s strsize tgt = true
        · rw [if_pos he, if_pos he]
          by_cases hc : (st.bestAddr == 0 || decide (st.bestAddr < s.n_value)) = true
          · rw [if_pos hc, if_pos hc]
            exact ih _
          · rw [if_neg hc, if_neg hc]
            exact ih st
        · rw [if_neg he, if_neg he]
          exact ih st
      · have hf : (s :: rest).filter (fun s => decide (s.n_strx < strsize)) =
            rest.filter (fun s => decide (s.n_strx < strsize)) := by
          simp [List.filter_cons, hstrx]
        rw [hf]
        simp only [dylibScanGo]
        have he : eligibleA s strsize tgt = false := by
          simp [eligibleA, hstrx]
        rw [if_neg (by simp [he])]
        exact ih st
  · intro strx v tgt hv
    have he : eligible ⟨strx, 0x0e, 1, 0, v⟩ tgt = true := by
      simp [eligible, hv]
      decide
    simp [search_symbol_table, searchSymGo, he]

/-- Witness for C10: the shared-table scan selects an entry whose n_strx 999
would be rejected by any small string-table bound. -/
theorem strx_filter_witness :
    search_symbol_table [⟨999, 0x0e, 1, 0, 7⟩] 0 1 100 =
      some ⟨999, 0x0e, 1, 0, 7⟩ :=
  strx_filter_only_sourceA.2 999 7 100 (by decide)

/-- C1: in the merge step of find_symbol_for_address, when Source A (the
embedded symbol table) ends with a best symbol (value a, name na) and Source B
(the shared local symbols) also yields a best symbol b, the result is the
Source B symbol exactly when its value is strictly greater than a, and the
Source A symbol otherwise — in particular Source A is kept on equal values. -/
theorem sourceB_overrides_iff_strictly_greater
    (mappings : List MappingInfo) (images : List ImageInfo)
    (lv : LocalSymbolsView) (rt : List RangeEntry)
    (dat : Nat → Option (List Nlist64 × Nat)) (tgt : Nat)
    (re : RangeEntry) (off a na : Nat) (se : LocalSymbolsEntry) (b : Nlist64)
    (hbs : binary_search_range_table rt tgt = some re)
    (hoff : image_index_to_dylib_offset images mappings re.imageIndex = (off : Int))
    (hA : search_dylib_symbol_table (dat off) tgt ⟨0, none, false⟩ =
      ⟨a, some na, true⟩)
    (hE : find_local_symbols_entry lv.entries off = some se)
    (hB : search_symbol_table lv.nlist se.nlistStartIndex se.nlistCount tgt =
      some b) :
    find_symbol_for_address mappings images (some lv) rt dat tgt =
      if a < b.n_value then
        ⟨some b.n_strx, b.n_value, toInt32 re.imageIndex, true⟩
      else ⟨some na, a, toInt32 re.imageIndex, true⟩ := by
  unfold find_symbol_for_address
  rw [hbs]
  dsimp only
  rw [hoff]
  rw [if_neg (Int.not_lt.mpr (Int.ofNat_nonneg off))]
  simp only [Int.toNat_natCast, hA, hE, hB]

/-- Witness for C1 at the fixture cache: Source A and Source B both find value
0x1100; Source A (name index 1) is kept over Source B (name index 2). -/
theorem sourceB_overrides_witness :
    find_symbol_for_address fxMappings fxImages (some fxLocalView) fxRange
      fxDylibAt 0x1500 = ⟨some 1, 0x1100, 0, true⟩ := by
  have h := sourceB_overrides_iff_strictly_greater fxMappings fxImages
    fxLocalView fxRange fxDylibAt 0x1500 ⟨0x1000, 0x1000, 0⟩ 0 0x1100 1
    ⟨0, 0, 1⟩ ⟨2, 0x0e, 1, 0, 0x1100⟩ (by decide) (by decide) (by decide)
    (by decide) (by decide)
  exact h.trans (by decide)

/-- C9: when Source A finds nothing (the in-out state stays at the sentinel
best address 0) and Source B finds a best symbol whose value is exactly 0, the
merge comparison 0 > 0 fails, so the Source B match is discarded:
find_symbol_for_address reports the owning image with no symbol and returns
the failure code. -/
theorem valueZero_sourceB_discarded
    (mappings : List MappingInfo) (images : List ImageInfo)
    (lv : LocalSymbolsView) (rt : List RangeEntry)
    (dat : Nat → Option (List Nlist64 × Nat)) (tgt : Nat)
    (re : RangeEntry) (off : Nat) (se : LocalSymbolsEntry) (b : Nlist64)
    (hbs : binary_search_range_table rt tgt = some re)
    (hoff : image_index_to_dylib_offset images mappings re.imageIndex = (off : Int))
    (hA : search_dylib_symbol_table (dat off) tgt ⟨0, none, false⟩ =
      ⟨0, none, false⟩)
    (hE : find_local_symbols_entry lv.entries off = some se)
    (hB : search_symbol_table lv.nlist se.nlistStartIndex se.nlistCount tgt =
      some b)
    (hb0 : b.n_value = 0) :
    find_symbol_for_address mappings images (some lv) rt dat tgt =
      ⟨none, 0, toInt32 re.imageIndex, false⟩ := by
  unfold find_symbol_for_address
  rw [hbs]
  dsimp only
  rw [hoff]
  rw [if_neg (Int.not_lt.mpr (Int.ofNat_nonneg off))]
  simp only [Int.toNat_natCast, hA, hE, hB]
  rw [hb0]
  rw [if_neg (lt_irrefl 0)]

/-- Witness for C9 at the fixture cache: Source A is empty, Source B finds a
value-0 symbol, and the result is image 0 with no symbol and the failure
code. -/
theorem valueZero_sourceB_witness :
    find_symbol_for_address fxMappings fxImages (some fxLocalViewZero) fxRange
      (fun _ => none) 0x1500 = ⟨none, 0, 0, false⟩ := by
  have h := valueZero_sourceB_discarded fxMappings fxImages fxLocalViewZero
    fxRange (fun _ => none) 0x1500 ⟨0x1000, 0x1000, 0⟩ 0 ⟨0, 0, 1⟩
    ⟨2, 0x0e, 1, 0, 0⟩ (by decide) (by decide) (by decide) (by decide)
    (by decide) (by decide)
  exact h.trans (by decide)

/-- C3 counterexample: on the fixture cache whose image load address does not
translate, find_symbol_for_address returns the failure code but still reports
image index 0, and the full run prints the image-only result instead of the
address-not-found error: image identification is reported. -/
theorem dylib_offset_failure_counterexample :
    find_symbol_for_address fxMappings fxImagesMiss none fxRange
      (fun _ => none) 0x1500 = ⟨none, 0, 0, false⟩ ∧
    runMain fxCvMiss 0x1500 =
      .resolvedImageOnly 0 [47, 97] (sub64 0x1500 0x5000) ∧
    MainResult.resolvedImageOnly 0 [47, 97] (sub64 0x1500 0x5000) ≠
      .errAddrNotFound := by
  refine ⟨by decide, by decide, by decide⟩

/-- C3 (amended): when the range search succeeds but the owning image load
address fails to convert to a file offset, find_symbol_for_address returns the
failure code with no symbol, and the image index output holds the (int32_t)
cast of the owning image index: for an index whose low 32 bits are below 2^31
the output is that nonnegative index, so the caller reports the image with no
symbol rather than not_found; for an index of 2^31 or more the cast wraps
negative and the caller reports not_found. -/
theorem dylib_offset_failure_amended
    (mappings : List MappingInfo) (images : List ImageInfo)
    (li : Option LocalSymbolsView) (rt : List RangeEntry)
    (dat : Nat → Option (List Nlist64 × Nat)) (tgt : Nat) (re : RangeEntry)
    (hbs : binary_search_range_table rt tgt = some re)
    (hoff : image_index_to_dylib_offset images mappings re.imageIndex < 0) :
    find_symbol_for_address mappings images li rt dat tgt =
      ⟨none, 0, toInt32 re.imageIndex, false⟩ ∧
    (re.imageIndex % 2 ^ 32 < 2 ^ 31 →
      toInt32 re.imageIndex = ((re.imageIndex % 2 ^ 32 : Nat) : Int)) ∧
    (2 ^ 31 ≤ re.imageIndex % 2 ^ 32 → toInt32 re.imageIndex < 0) := by
  refine ⟨?_, ?_, ?_⟩
  · unfold find_symbol_for_address
    rw [hbs]
    dsimp only
    rw [if_pos hoff]
  · intro h
    unfold toInt32
    rw [if_pos h]
  · intro h
    have h2 : re.imageIndex % 2 ^ 32 < 2 ^ 32 := Nat.mod_lt _ (by norm_num)
    unfold toInt32
    rw [if_neg (by omega)]
    omega

/-- Witness for the C3 amended theorem at the fixture cache. -/
theorem dylib_offset_failure_witness :
    find_symbol_for_address fxMappings fxImagesMiss none fxRange
      (fun _ => none) 0x1500 =
      ⟨none, 0, toInt32 (⟨0x1000, 0x1000, 0⟩ : RangeEntry).imageIndex, false⟩ :=
  (dylib_offset_failure_amended fxMappings fxImagesMiss none fxRange
    (fun _ => none) 0x1500 ⟨0x1000, 0x1000, 0⟩ (by decide) (by decide)).1

/-- Any failed accelerator precondition makes get_accelerator_info return
none. -/
theorem accel_preconditions_none (sz : Nat) (hdr : CacheHeader)
    (maps : List MappingInfo) (accel : AcceleratorInfo)
    (h : hdr.mappingOffset < 0x78 ∨ hdr.accelerateInfoAddr = 0 ∨
      hdr.accelerateInfoSize = 0 ∨
      addr_to_file_offset maps hdr.accelerateInfoAddr < 0 ∨
      sz < (addr_to_file_offset maps hdr.accelerateInfoAddr).toNat + 72 ∨
      accel.version ≠ 1 ∨ accel.rangeTableCount = 0 ∨
      sz < (addr_to_file_offset maps hdr.accelerateInfoAddr).toNat +
        accel.rangeTableOffset + accel.rangeTableCount * 16) :
    get_accelerator_info sz hdr maps accel = none := by
  unfold get_accelerator_info
  split_ifs with h1 h2 h3 h4 h5 h6 h7
  any_goals rfl
  rcases h with h | h | h | h | h | h | h | h
  · exact absurd h h1
  · exact absurd (Or.inl h) h2
  · exact absurd (Or.inr h) h2
  · exact absurd h h3
  · exact absurd h h4
  · exact absurd h h5
  · exact absurd h h6
  · exact absurd h h7

/-- C7: if any accelerator precondition fails — header too small for the
accelerator fields (mappingOffset < 0x78), zero accelerator address or size,
untranslatable address, info header or range-table region out of bounds,
version different from 1, or empty range table — the whole run ends in a
validation/unsupported-format error and no address resolution is attempted. -/
theorem accel_preconditions_fatal (v : CacheView) (tgt : Nat)
    (h : v.header.mappingOffset < 0x78 ∨ v.header.accelerateInfoAddr = 0 ∨
      v.header.accelerateInfoSize = 0 ∨
      addr_to_file_offset v.mappings v.header.accelerateInfoAddr < 0 ∨
      v.cacheSize <
        (addr_to_file_offset v.mappings v.header.accelerateInfoAddr).toNat + 72 ∨
      v.accel.version ≠ 1 ∨ v.accel.rangeTableCount = 0 ∨
      v.cacheSize <
        (addr_to_file_offset v.mappings v.header.accelerateInfoAddr).toNat +
          v.accel.rangeTableOffset + v.accel.rangeTableCount * 16) :
    isValidationError (runMain v tgt) = true := by
  have hacc := accel_preconditions_none v.cacheSize v.header v.mappings v.accel h
  unfold runMain
  rw [hacc]
  split_ifs <;> rfl

/-- Witness for C7: a cache view whose accelerator address is zero fails with
a validation error. -/
theorem accel_preconditions_witness :
    isValidationError (runMain fxCvNoAccel 5) = true :=
  accel_preconditions_fatal fxCvNoAccel 5 (Or.inr (Or.inl rfl))

/-- If a table bound check fails, runMain ends in the matching early error,
a value depending only on the cache size and the header. -/
theorem runMain_bounds_err (v : CacheView) (tgt : Nat)
    (hb : checkMappingBounds v.cacheSize v.header ∨
      checkImagesBounds v.cacheSize v.header) :
    runMain v tgt =
      if v.cacheSize < 152 then .errTooSmall
      else if ¬ magicOK v.header.magic then .errBadMagic
      else if checkMappingBounds v.cacheSize v.header then .errMappingBounds
      else .errImagesBounds := by
  unfold runMain
  by_cases h1 : v.cacheSize < 152
  · rw [if_pos h1, if_pos h1]
  · rw [if_neg h1, if_neg h1]
    by_cases h2 : ¬ magicOK v.header.magic = true
    · rw [if_pos h2, if_pos h2]
    · rw [if_neg h2, if_neg h2]
      by_cases h3 : checkMappingBounds v.cacheSize v.header
      · rw [if_pos h3, if_pos h3]
      · rw [if_neg h3, if_neg h3]
        rcases hb with hb | hb
        · exact absurd hb h3
        · rw [if_pos hb]

/-- C8: a header whose mappingCount or imagesCount makes count * 32 exceed
cacheSize - offset (or whose table offset exceeds the buffer) is rejected with
a validation error; the size_t products never wrap for uint32 counts; and the
outcome is computed before any table content is read: it is unchanged under
arbitrary replacement of every table of the view. -/
theorem table_bounds_rejected (v : CacheView) (tgt : Nat)
    (maps2 : List MappingInfo) (imgs2 : List ImageInfo)
    (accel2 : AcceleratorInfo) (lsi2 : LocalSymbolsInfo)
    (le2 : List LocalSymbolsEntry) (ln2 : List Nlist64)
    (rt2 : List RangeEntry) (dat2 : Nat → Option (List Nlist64 × Nat))
    (pat2 : Nat → Option (List Nat))
    (hm32 : v.header.mappingCount < 2 ^ 32)
    (hi32 : v.header.imagesCount < 2 ^ 32)
    (hbad : v.header.mappingOffset > v.cacheSize ∨
      v.header.mappingCount * 32 > v.cacheSize - v.header.mappingOffset ∨
      v.header.imagesOffset > v.cacheSize ∨
      v.header.imagesCount * 32 > v.cacheSize - v.header.imagesOffset) :
    (runMain v tgt = .errTooSmall ∨ runMain v tgt = .errBadMagic ∨
      runMain v tgt = .errMappingBounds ∨ runMain v tgt = .errImagesBounds) ∧
    v.header.mappingCount * 32 % 2 ^ 64 = v.header.mappingCount * 32 ∧
    v.header.imagesCount * 32 % 2 ^ 64 = v.header.imagesCount * 32 ∧
    runMain ⟨v.cacheSize, v.header, maps2, imgs2, accel2, lsi2, le2, ln2, rt2,
      dat2, pat2⟩ tgt = runMain v tgt := by
  have hmmod : v.header.mappingCount * 32 % 2 ^ 64 = v.header.mappingCount * 32 :=
    Nat.mod_eq_of_lt (by omega)
  have himod : v.header.imagesCount * 32 % 2 ^ 64 = v.header.imagesCount * 32 :=
    Nat.mod_eq_of_lt (by omega)
  have hbounds : checkMappingBounds v.cacheSize v.header ∨
      checkImagesBounds v.cacheSize v.header := by
    unfold checkMappingBounds checkImagesBounds
    rw [hmmod, himod]
    rcases hbad with h | h | h | h
    · exact Or.inl (Or.inl h)
    · exact Or.inl (Or.inr h)
    · exact Or.inr (Or.inl h)
    · exact Or.inr (Or.inr h)
  refine ⟨?_, hmmod, himod, ?_⟩
  · rw [runMain_bounds_err v tgt hbounds]
    split_ifs <;> simp
  · rw [runMain_bounds_err ⟨v.cacheSize, v.header, maps2, imgs2, accel2, lsi2,
      le2, ln2, rt2, dat2, pat2⟩ tgt hbounds,
      runMain_bounds_err v tgt hbounds]

/-- Witness for C8: a 200-byte cache declaring 2 ^ 31 mapping entries is
rejected before its (empty) tables are consulted. -/
theorem table_bounds_witness :
    (runMain fxCvHugeCount 0 = .errTooSmall ∨
      runMain fxCvHugeCount 0 = .errBadMagic ∨
      runMain fxCvHugeCount 0 = .errMappingBounds ∨
      runMain fxCvHugeCount 0 = .errImagesBounds) ∧
    fxCvHugeCount.header.mappingCount * 32 % 2 ^ 64 =
      fxCvHugeCount.header.mappingCount * 32 ∧
    fxCvHugeCount.header.imagesCount * 32 % 2 ^ 64 =
      fxCvHugeCount.header.imagesCount * 32 ∧
    runMain ⟨fxCvHugeCount.cacheSize, fxCvHugeCount.header, [], [], ⟨0, 0, 0⟩,
      ⟨0, 0, 0, 0, 0, 0⟩, [], [], [], fun _ => none, fun _ => none⟩ 0 =
      runMain fxCvHugeCount 0 :=
  table_bounds_rejected fxCvHugeCount 0 [] [] ⟨0, 0, 0⟩ ⟨0, 0, 0, 0, 0, 0⟩
    [] [] [] (fun _ => none) (fun _ => none) (by decide) (by decide) (by decide)
